import Mathlib

/-!
Verification of the concurrency core of the Roket-Video-Maker repository.

Two functions are modelled, both translated directly from the source:

* `retryWithBackoff` (src/api.ts, lines 18-41): a retry loop with
  exponential backoff.  The TypeScript loop is

    let attempt = 1;
    while (attempt <= retries) {
        try { return await fn(); }
        catch (error) {
            if (attempt === retries) { throw error; }
            if (onRetry) { onRetry(attempt, error, delay); }
            await new Promise(resolve => setTimeout(resolve, delay));
            delay *= 2;
            attempt++;
        }
    }
    throw new Error("Max retries reached");

  The operation `fn` is modelled as a deterministic function from the
  attempt number to `Except E V` (a rejection with error `e` or a
  fulfilment with value `v`).  The model returns a trace recording how
  often `fn` was invoked, each `onRetry(attempt, _, delay)` invocation,
  each awaited delay, and the final outcome (a returned value, a
  rethrown operation error, or the trailing generic
  "Max retries reached" error).  The loop is driven by the number of
  remaining allowed attempts `rem = retries - attempt + 1` (clamped at
  0), which makes the recursion structural: the loop guard
  `attempt <= retries` is `rem ≥ 1`, and the last-attempt test
  `attempt === retries` is `rem = 1`.

* `runWithConcurrency` (src/unnamed/part_002, lines 58-70):

    async function runWithConcurrency(tasks, limit) {
        const executing = new Set();
        for (const task of tasks) {
            const promise = task().finally(() => { executing.delete(promise); });
            executing.add(promise);
            if (executing.size >= limit) {
                await Promise.race(executing);
            }
        }
        await Promise.all(Array.from(executing));
    }

  Each task is modelled by a duration (how long its promise takes to
  settle after the task is invoked) and a flag saying whether the
  promise fulfils or rejects.  The single-threaded JS event loop is
  simulated with a virtual clock:

  - starting a task at time `t` creates an executing entry that settles
    at `t + dur`;
  - `.finally` removes the entry from the set exactly when it settles,
    and the tracked promise then settles the same way (a rejection
    passes through `.finally` unchanged);
  - `await Promise.race(executing)` resumes the runner when the first
    member settles: the member with the least settle time, ties broken
    by registration order (earlier-registered timers fire first, and
    the runner's continuation is a microtask that runs before any later
    timer).  Only that one member has settled when the runner resumes,
    so only it has been deleted from the set.  If that member rejected,
    the `await` rethrows and the async function's promise rejects;
    tasks not yet reached by the loop are then never started (already
    started tasks keep running in the background, which the trace
    reflects by their recorded starts);
  - `await Promise.all(...)` resolves at the largest settle time when
    every member fulfils, and rejects at the settle time of the
    first-settling rejecting member otherwise.

  The model returns the list of `(task index, start time)` pairs in
  start order, the runner's outcome (resolved/rejected, with the
  virtual time and, for rejections, the index of the offending task),
  and the peak size reached by the executing set (the largest number of
  tasks simultaneously started-but-not-settled).
-/

namespace Roket

/-- Outcome of a `retryWithBackoff` call: a value returned by the
operation, an error thrown by the operation and rethrown unchanged, or
the trailing generic `new Error("Max retries reached")`. -/
inductive RetryOutcome (E V : Type) where
  | ok : V → RetryOutcome E V
  | err : E → RetryOutcome E V
  | maxRetriesReached : RetryOutcome E V
deriving DecidableEq, Repr

/-- Observable trace of one `retryWithBackoff` call. -/
structure RetryTrace (E V : Type) where
  /-- number of times `fn` was invoked -/
  opCalls : Nat
  /-- the `(attempt, delay)` argument pairs of the `onRetry` invocations,
  in order -/
  onRetryCalls : List (Nat × Nat)
  /-- the delays awaited between attempts, in order -/
  sleeps : List Nat
  /-- how the returned promise settles -/
  outcome : RetryOutcome E V
deriving DecidableEq, Repr

/-- The retry loop of `retryWithBackoff` (src/api.ts:24-39).  `attempt`
and `delay` are the loop variables; `rem` is the number of still-allowed
attempts, i.e. `retries - attempt + 1` clamped at 0, so `rem = 0` is the
loop guard failing and `rem = 1` is the `attempt === retries` test. -/
def retryGo (op : Nat → Except E V) (attempt delay : Nat) : Nat → RetryTrace E V
  | 0 => ⟨0, [], [], .maxRetriesReached⟩
  | rem + 1 =>
    match op attempt with
    | .ok v => ⟨1, [], [], .ok v⟩
    | .error e =>
      match rem with
      | 0 => ⟨1, [], [], .err e⟩
      | _ + 1 =>
        let r := retryGo op (attempt + 1) (delay * 2) rem
        ⟨1 + r.opCalls, (attempt, delay) :: r.onRetryCalls, delay :: r.sleeps, r.outcome⟩

/-- `retryWithBackoff` (src/api.ts:18-41).  `retries` is an `Int`
because the TypeScript parameter is an arbitrary number and the claims
consider non-positive values; the loop runs while `attempt <= retries`
with `attempt` starting at 1, i.e. for `max 0 retries` iterations. -/
def retryWithBackoff (op : Nat → Except E V) (retries : Int) (delay : Nat) :
    RetryTrace E V :=
  retryGo op 1 delay retries.toNat

/-- One task passed to `runWithConcurrency`: its promise settles
`dur` ticks after the task is invoked, fulfilling if `ok` and rejecting
otherwise. -/
structure Task where
  dur : Nat
  ok : Bool
deriving DecidableEq, Repr

/-- A member of the `executing` set: the index of the task it came
from, the virtual time at which its promise settles, and whether it
fulfils. -/
structure Exec where
  idx : Nat
  finish : Nat
  ok : Bool
deriving DecidableEq, Repr

/-- How the promise returned by `runWithConcurrency` settles:
`resolved t` at virtual time `t`, or `rejected t i` at time `t` with the
rejection of task `i`. -/
inductive RunOutcome where
  | resolved : Nat → RunOutcome
  | rejected : Nat → Nat → RunOutcome
deriving DecidableEq, Repr

/-- Observable trace of one `runWithConcurrency` call. -/
structure RunTrace where
  /-- `(task index, start time)` for each task invocation, in order -/
  starts : List (Nat × Nat)
  /-- how the returned promise settles -/
  outcome : RunOutcome
  /-- the largest size the `executing` set ever reached -/
  peak : Nat
deriving DecidableEq, Repr

/-- First-settling member: scan of the remaining members keeping the
current winner, replacing it only on a strictly earlier settle time, so
that ties go to the earlier-registered member. -/
def raceFirst (w : Exec) : List Exec → Exec
  | [] => w
  | f :: l => raceFirst (if f.finish < w.finish then f else w) l

/-- Winner of `Promise.race` over a set of executing entries listed in
registration order (`dflt` is returned for the empty list, which the
runner never races on). -/
def raceWinner (l : List Exec) (dflt : Exec) : Exec :=
  match l with
  | [] => dflt
  | w :: ws => raceFirst w ws

/-- Settle time of `Promise.all`: the latest settle time among the
members, or the current time for an empty set. -/
def maxFinish (t : Nat) : List Exec → Nat
  | [] => t
  | e :: l => maxFinish (max t e.finish) l

/-- The members of the executing set whose promises will reject, in
registration order. -/
def rejecting : List Exec → List Exec
  | [] => []
  | e :: l => if e.ok then rejecting l else e :: rejecting l

/-- `Set.delete`: remove the (unique) occurrence of a member. -/
def eraseExec (w : Exec) : List Exec → List Exec
  | [] => []
  | e :: l => if e = w then l else e :: eraseExec w l

/-- The loop of `runWithConcurrency` (src/unnamed/part_002:60-69)
followed by the trailing `await Promise.all`.  `pending` are the tasks
not yet reached, `k` the index of the next task, `time` the virtual
clock, `executing` the set in registration order, `starts` the
accumulated start events (most recent first), `peak` the accumulated
maximal set size. -/
def runLoop (limit : Int) :
    List Task → Nat → Nat → List Exec → List (Nat × Nat) → Nat → RunTrace
  | [], _, time, executing, starts, peak =>
    match rejecting executing with
    | [] => ⟨starts.reverse, .resolved (maxFinish time executing), peak⟩
    | b :: bs =>
      let w := raceFirst b bs
      ⟨starts.reverse, .rejected w.finish w.idx, peak⟩
  | t :: rest, k, time, executing, starts, peak =>
    let e : Exec := ⟨k, time + t.dur, t.ok⟩
    let ex := executing ++ [e]
    let st := (k, time) :: starts
    let pk := max peak ex.length
    if (ex.length : Int) ≥ limit then
      let w := raceWinner ex e
      if w.ok then
        runLoop limit rest (k + 1) w.finish (eraseExec w ex) st pk
      else
        ⟨st.reverse, .rejected w.finish w.idx, pk⟩
    else
      runLoop limit rest (k + 1) time ex st pk

/-- `runWithConcurrency` (src/unnamed/part_002:58-70). -/
def runWithConcurrency (tasks : List Task) (limit : Int) : RunTrace :=
  runLoop limit tasks 0 0 [] [] 0

/-- The retry loop, given at least one allowed attempt, ends with a
value returned by the operation at some attempt, or with the error the
operation threw on the last allowed attempt. -/
lemma retryGo_outcome (op : Nat → Except E V) :
    ∀ (rem : Nat), 1 ≤ rem → ∀ (attempt delay : Nat),
      (∃ n v, attempt ≤ n ∧ n < attempt + rem ∧ op n = .ok v ∧
        (retryGo op attempt delay rem).outcome = .ok v) ∨
      (∃ e, op (attempt + rem - 1) = .error e ∧
        (retryGo op attempt delay rem).outcome = .err e) := by
  intro rem
  induction rem with
  | zero => omega
  | succ r ih =>
    intro _ attempt delay
    cases hop : op attempt with
    | ok v =>
      left
      exact ⟨attempt, v, le_refl _, by omega, hop, by simp [retryGo, hop]⟩
    | error e =>
      match r with
      | 0 =>
        right
        exact ⟨e, by simpa using hop, by simp [retryGo, hop]⟩
      | r' + 1 =>
        have hrec := ih (by omega) (attempt + 1) (delay * 2)
        have hout : (retryGo op attempt delay (r' + 1 + 1)).outcome =
            (retryGo op (attempt + 1) (delay * 2) (r' + 1)).outcome := by
          simp [retryGo, hop]
        rcases hrec with ⟨n, v, h1, h2, h3, h4⟩ | ⟨e', h1, h2⟩
        · left
          exact ⟨n, v, by omega, by omega, h3, by rw [hout]; exact h4⟩
        · right
          refine ⟨e', ?_, by rw [hout]; exact h2⟩
          have : attempt + 1 + (r' + 1) - 1 = attempt + (r' + 1 + 1) - 1 := by omega
          rwa [this] at h1

end Roket

namespace Roket

/-- C5: for an operation failing on every attempt,
`retryWithBackoff(op, 3, 100)` invokes the operation exactly 3 times,
invokes `onRetry` exactly twice with delay arguments 100 then 200 (the
delay doubling each round), and its returned promise rejects with the
original error thrown by the 3rd attempt, unchanged. -/
theorem C5_exhaustion (E V : Type) (f : Nat → E) :
    retryWithBackoff (V := V) (fun n => .error (f n)) 3 100 =
      ⟨3, [(1, 100), (2, 200)], [100, 200], .err (f 3)⟩ := rfl

/-- C6: for an operation failing on the first attempt and succeeding on
the second, `retryWithBackoff(op, 3, 100)` invokes the operation exactly
twice, invokes `onRetry` exactly once, and resolves with the success
value from the second attempt; no further attempts are made. -/
theorem C6_short_circuit (E V : Type) (e : E) (v : V) :
    retryWithBackoff (fun n => if n == 1 then Except.error e else Except.ok v) 3 100 =
      ⟨2, [(1, 100)], [100], .ok v⟩ := rfl

/-- C8: with at least one allowed attempt, the defensive trailing
`throw new Error("Max retries reached")` of `retryWithBackoff` is
unreachable: every call resolves with a value returned by the operation
or rejects with the error the operation threw on the last attempt. -/
theorem C8_fallback_unreachable (E V : Type) (op : Nat → Except E V) (retries : Int)
    (delay : Nat) (h : 1 ≤ retries) :
    (retryWithBackoff op retries delay).outcome ≠ .maxRetriesReached ∧
    ((∃ n v, op n = .ok v ∧ (retryWithBackoff op retries delay).outcome = .ok v) ∨
     (∃ e, op retries.toNat = .error e ∧
        (retryWithBackoff op retries delay).outcome = .err e)) := by
  have h1 : 1 ≤ retries.toNat := by omega
  have hmain := retryGo_outcome op retries.toNat h1 1 delay
  have harg : 1 + retries.toNat - 1 = retries.toNat := by omega
  rw [harg] at hmain
  unfold retryWithBackoff
  rcases hmain with ⟨n, v, _, _, h3, h4⟩ | ⟨e, h2, h3⟩
  · exact ⟨(by rw [h4]; intro hc; cases hc), Or.inl ⟨n, v, h3, h4⟩⟩
  · exact ⟨(by rw [h3]; intro hc; cases hc), Or.inr ⟨e, h2, h3⟩⟩

/-- Witness for C8 at a concrete operation and retry count. -/
theorem C8_fallback_unreachable_witness :
    (retryWithBackoff (fun _ => (Except.ok 7 : Except String Nat)) 1 100).outcome ≠
        .maxRetriesReached ∧
    ((∃ (n : Nat) (v : Nat), (Except.ok 7 : Except String Nat) = .ok v ∧
        (retryWithBackoff (fun _ => (Except.ok 7 : Except String Nat)) 1 100).outcome = .ok v) ∨
     (∃ (e : String), (Except.ok 7 : Except String Nat) = .error e ∧
        (retryWithBackoff (fun _ => (Except.ok 7 : Except String Nat)) 1 100).outcome = .err e)) :=
  C8_fallback_unreachable String Nat (fun _ => Except.ok 7) 1 100 (by decide)

/-- C9: for every `retries ≤ 0` the loop guard of `retryWithBackoff`
fails immediately, so the operation is never invoked and the call
rejects with the generic "Max retries reached" error. -/
theorem C9_nonpos_retries (E V : Type) (op : Nat → Except E V) (retries : Int)
    (delay : Nat) (h : retries ≤ 0) :
    retryWithBackoff op retries delay = ⟨0, [], [], .maxRetriesReached⟩ := by
  have h0 : retries.toNat = 0 := by omega
  rw [retryWithBackoff, h0]
  rfl

/-- Witness for C9 at a concrete operation and retry count. -/
theorem C9_nonpos_retries_witness :
    retryWithBackoff (fun n => (Except.error n : Except Nat String)) (-2) 5 =
      ⟨0, [], [], .maxRetriesReached⟩ :=
  C9_nonpos_retries Nat String (fun n => Except.error n) (-2) 5 (by decide)

/-- The race winner is one of the raced members. -/
lemma raceFirst_mem : ∀ (l : List Exec) (w : Exec), raceFirst w l ∈ w :: l := by
  intro l
  induction l with
  | nil => intro w; exact List.mem_cons_self _ _
  | cons f t ih =>
    intro w
    rw [raceFirst]
    have h := ih (if f.finish < w.finish then f else w)
    rcases List.mem_cons.mp h with h | h
    · rw [h]
      by_cases hf : f.finish < w.finish
      · simp [hf]
      · simp [hf]
    · exact List.mem_cons_of_mem _ (List.mem_cons_of_mem _ h)

/-- The race winner settles no later than any raced member. -/
lemma raceFirst_min : ∀ (l : List Exec) (w : Exec),
    (raceFirst w l).finish ≤ w.finish ∧ ∀ f ∈ l, (raceFirst w l).finish ≤ f.finish := by
  intro l
  induction l with
  | nil => intro w; exact ⟨le_refl _, by simp⟩
  | cons f t ih =>
    intro w
    by_cases hf : f.finish < w.finish
    · rw [raceFirst, if_pos hf]
      obtain ⟨h1, h2⟩ := ih f
      refine ⟨le_trans h1 (le_of_lt hf), ?_⟩
      intro g hg
      rcases List.mem_cons.mp hg with rfl | hg
      · exact h1
      · exact h2 g hg
    · rw [raceFirst, if_neg hf]
      obtain ⟨h1, h2⟩ := ih w
      refine ⟨h1, ?_⟩
      intro g hg
      rcases List.mem_cons.mp hg with rfl | hg
      · exact le_trans h1 (Nat.le_of_not_lt hf)
      · exact h2 g hg

/-- Membership form of `raceFirst_mem` for `raceWinner`. -/
lemma raceWinner_mem {l : List Exec} (d : Exec) (h : l ≠ []) : raceWinner l d ∈ l := by
  match l with
  | [] => exact absurd rfl h
  | w :: ws => exact raceFirst_mem ws w

/-- Minimality form of `raceFirst_min` for `raceWinner`. -/
lemma raceWinner_min {l : List Exec} (d : Exec) (h : l ≠ []) :
    ∀ f ∈ l, (raceWinner l d).finish ≤ f.finish := by
  match l with
  | [] => exact absurd rfl h
  | w :: ws =>
    intro f hf
    rcases List.mem_cons.mp hf with rfl | hf
    · exact (raceFirst_min ws f).1
    · exact (raceFirst_min ws w).2 f hf

/-- The current time never exceeds the `Promise.all` settle time. -/
lemma le_maxFinish : ∀ (l : List Exec) (t : Nat), t ≤ maxFinish t l := by
  intro l
  induction l with
  | nil => intro t; exact le_refl _
  | cons e l ih =>
    intro t
    exact le_trans (Nat.le_max_left t e.finish) (ih (max t e.finish))

/-- Every member settles no later than the `Promise.all` settle time. -/
lemma finish_le_maxFinish : ∀ (l : List Exec) (t : Nat), ∀ e ∈ l,
    e.finish ≤ maxFinish t l := by
  intro l
  induction l with
  | nil => intro t e he; cases he
  | cons f l ih =>
    intro t e he
    rcases List.mem_cons.mp he with rfl | he
    · exact le_trans (Nat.le_max_right t e.finish) (le_maxFinish l _)
    · exact ih _ e he

/-- An all-fulfilling executing set has no rejecting member. -/
lemma rejecting_eq_nil : ∀ {l : List Exec}, (∀ e ∈ l, e.ok = true) → rejecting l = [] := by
  intro l
  induction l with
  | nil => intro _; rfl
  | cons e l ih =>
    intro h
    rw [rejecting, if_pos (h e (List.mem_cons_self _ _))]
    exact ih fun f hf => h f (List.mem_cons_of_mem _ hf)

/-- A rejecting member keeps the rejecting sublist nonempty. -/
lemma rejecting_ne_nil {e : Exec} (hbad : e.ok = false) :
    ∀ {l : List Exec}, e ∈ l → rejecting l ≠ [] := by
  intro l
  induction l with
  | nil => intro h; cases h
  | cons f l ih =>
    intro he
    rw [rejecting]
    rcases List.mem_cons.mp he with rfl | he'
    · rw [hbad]
      simp
    · by_cases hf : f.ok = true
      · rw [if_pos hf]
        exact ih he'
      · rw [if_neg hf]
        simp

/-- `Set.delete` of a present member shrinks the set by one. -/
lemma length_eraseExec {w : Exec} : ∀ {l : List Exec}, w ∈ l →
    (eraseExec w l).length + 1 = l.length := by
  intro l
  induction l with
  | nil => intro h; cases h
  | cons e l ih =>
    intro h
    rw [eraseExec]
    by_cases he : e = w
    · rw [if_pos he]
      simp
    · rw [if_neg he]
      have hw : w ∈ l := by
        rcases List.mem_cons.mp h with h' | h'
        · exact absurd h'.symm he
        · exact h'
      have := ih hw
      simp only [List.length_cons]
      omega

/-- Remaining members after `Set.delete` were members before. -/
lemma mem_of_mem_eraseExec {a w : Exec} : ∀ {l : List Exec}, a ∈ eraseExec w l → a ∈ l := by
  intro l
  induction l with
  | nil => intro h; cases h
  | cons e l ih =>
    intro h
    rw [eraseExec] at h
    by_cases he : e = w
    · rw [if_pos he] at h
      exact List.mem_cons_of_mem _ h
    · rw [if_neg he] at h
      rcases List.mem_cons.mp h with rfl | h'
      · exact List.mem_cons_self _ _
      · exact List.mem_cons_of_mem _ (ih h')

/-- `Set.delete` keeps every other member. -/
lemma mem_eraseExec_of_ne {a w : Exec} (hne : a ≠ w) :
    ∀ {l : List Exec}, a ∈ l → a ∈ eraseExec w l := by
  intro l
  induction l with
  | nil => intro h; cases h
  | cons e l ih =>
    intro h
    rw [eraseExec]
    by_cases he : e = w
    · rw [if_pos he]
      rcases List.mem_cons.mp h with rfl | h'
      · exact absurd he hne
      · exact h'
    · rw [if_neg he]
      rcases List.mem_cons.mp h with rfl | h'
      · exact List.mem_cons_self _ _
      · exact List.mem_cons_of_mem _ (ih h')

/-- Reading off the element and the remaining suffix of a `drop`. -/
lemma drop_eq_cons_get {α : Type} : ∀ (l : List α) (k : Nat) (t : α) (r : List α),
    l.drop k = t :: r → l.get? k = some t ∧ l.drop (k + 1) = r := by
  intro l
  induction l with
  | nil => intro k t r h; rw [List.drop_nil] at h; cases h
  | cons a l ih =>
    intro k t r h
    match k with
    | 0 =>
      rw [List.drop_zero] at h
      cases h
      exact ⟨rfl, rfl⟩
    | k + 1 =>
      have h' : l.drop k = t :: r := h
      obtain ⟨h1, h2⟩ := ih k t r h'
      exact ⟨h1, h2⟩

/-- The recorded starts are the accumulated ones followed by the next
task indices in submission order: the loop invokes tasks in order and
each at most once. -/
lemma runLoop_starts_shape (limit : Int) :
    ∀ (pending : List Task) (k time : Nat) (executing : List Exec)
      (starts : List (Nat × Nat)) (peak : Nat),
      ∃ m, m ≤ pending.length ∧
        (runLoop limit pending k time executing starts peak).starts.map Prod.fst =
          (starts.map Prod.fst).reverse ++ List.range' k m := by
  intro pending
  induction pending with
  | nil =>
    intro k time executing starts peak
    refine ⟨0, Nat.zero_le _, ?_⟩
    rw [runLoop]
    cases h : rejecting executing with
    | nil => simp [List.map_reverse]
    | cons b bs => simp [List.map_reverse]
  | cons t rest ih =>
    intro k time executing starts peak
    simp only [runLoop]
    by_cases hc : ((executing ++ [(⟨k, time + t.dur, t.ok⟩ : Exec)]).length : Int) ≥ limit
    · rw [if_pos hc]
      by_cases hw :
          (raceWinner (executing ++ [(⟨k, time + t.dur, t.ok⟩ : Exec)])
            ⟨k, time + t.dur, t.ok⟩).ok = true
      · rw [if_pos hw]
        obtain ⟨m, hm, heq⟩ := ih (k + 1)
          (raceWinner (executing ++ [(⟨k, time + t.dur, t.ok⟩ : Exec)])
            ⟨k, time + t.dur, t.ok⟩).finish
          (eraseExec
            (raceWinner (executing ++ [(⟨k, time + t.dur, t.ok⟩ : Exec)])
              ⟨k, time + t.dur, t.ok⟩)
            (executing ++ [(⟨k, time + t.dur, t.ok⟩ : Exec)]))
          ((k, time) :: starts) (max peak (executing ++ [(⟨k, time + t.dur, t.ok⟩ : Exec)]).length)
        refine ⟨m + 1, by simp only [List.length_cons]; omega, ?_⟩
        rw [heq, List.range'_succ]
        simp [List.append_assoc]
      · rw [if_neg hw]
        refine ⟨1, by simp only [List.length_cons]; omega, ?_⟩
        simp [List.map_reverse, List.range'_succ]
    · rw [if_neg hc]
      obtain ⟨m, hm, heq⟩ := ih (k + 1) time
        (executing ++ [(⟨k, time + t.dur, t.ok⟩ : Exec)]) ((k, time) :: starts)
        (max peak (executing ++ [(⟨k, time + t.dur, t.ok⟩ : Exec)]).length)
      refine ⟨m + 1, by simp only [List.length_cons]; omega, ?_⟩
      rw [heq, List.range'_succ]
      simp [List.append_assoc]

/-- A task whose promise rejects makes the runner's returned promise
reject: either its rejection is the first settlement some
`Promise.race` resumes on, or it is still in the set when the trailing
`Promise.all` is awaited. -/
lemma runLoop_rejects (limit : Int) :
    ∀ (pending : List Task) (k time : Nat) (executing : List Exec)
      (starts : List (Nat × Nat)) (peak : Nat),
      ((∃ t ∈ pending, t.ok = false) ∨ (∃ e ∈ executing, e.ok = false)) →
      ∃ T j, (runLoop limit pending k time executing starts peak).outcome = .rejected T j := by
  intro pending
  induction pending with
  | nil =>
    intro k time executing starts peak h
    rcases h with ⟨t, ht, _⟩ | ⟨e, he, hbad⟩
    · cases ht
    · rw [runLoop]
      cases hrej : rejecting executing with
      | nil => exact absurd hrej (rejecting_ne_nil hbad he)
      | cons b bs => exact ⟨_, _, rfl⟩
  | cons t rest ih =>
    intro k time executing starts peak h
    simp only [runLoop]
    by_cases hc : ((executing ++ [(⟨k, time + t.dur, t.ok⟩ : Exec)]).length : Int) ≥ limit
    · rw [if_pos hc]
      by_cases hw :
          (raceWinner (executing ++ [(⟨k, time + t.dur, t.ok⟩ : Exec)])
            ⟨k, time + t.dur, t.ok⟩).ok = true
      · rw [if_pos hw]
        apply ih
        have hbadex : (∃ t' ∈ rest, t'.ok = false) ∨
            (∃ e ∈ executing ++ [(⟨k, time + t.dur, t.ok⟩ : Exec)], e.ok = false) := by
          rcases h with ⟨t', ht', hbad⟩ | ⟨e, he, hbad⟩
          · rcases List.mem_cons.mp ht' with rfl | ht''
            · exact Or.inr ⟨⟨k, time + t'.dur, t'.ok⟩,
                List.mem_append_right _ (List.mem_singleton.mpr rfl), hbad⟩
            · exact Or.inl ⟨t', ht'', hbad⟩
          · exact Or.inr ⟨e, List.mem_append_left _ he, hbad⟩
        rcases hbadex with hrest | ⟨e, he, hbad⟩
        · exact Or.inl hrest
        · refine Or.inr ⟨e, ?_, hbad⟩
          apply mem_eraseExec_of_ne ?_ he
          intro hew
          rw [hew, hw] at hbad
          cases hbad
      · rw [if_neg hw]
        exact ⟨_, _, rfl⟩
    · rw [if_neg hc]
      apply ih
      rcases h with ⟨t', ht', hbad⟩ | ⟨e, he, hbad⟩
      · rcases List.mem_cons.mp ht' with rfl | ht''
        · exact Or.inr ⟨⟨k, time + t'.dur, t'.ok⟩,
            List.mem_append_right _ (List.mem_singleton.mpr rfl), hbad⟩
        · exact Or.inl ⟨t', ht'', hbad⟩
      · exact Or.inr ⟨e, List.mem_append_left _ he, hbad⟩

/-- With `limit ≥ 1` and at most `limit - 1` tasks already in flight,
the executing set never grows past `limit`: the loop awaits a race as
soon as the set reaches `limit`, and the race removes the settled
member before the next task starts. -/
lemma runLoop_peak (limit : Int) (hlim : 1 ≤ limit) :
    ∀ (pending : List Task) (k time : Nat) (executing : List Exec)
      (starts : List (Nat × Nat)) (peak : Nat),
      executing.length + 1 ≤ limit.toNat →
      (runLoop limit pending k time executing starts peak).peak ≤ max peak limit.toNat := by
  intro pending
  induction pending with
  | nil =>
    intro k time executing starts peak _
    rw [runLoop]
    cases hrej : rejecting executing with
    | nil => exact Nat.le_max_left _ _
    | cons b bs => exact Nat.le_max_left _ _
  | cons t rest ih =>
    intro k time executing starts peak hexec
    have hexlen : (executing ++ [(⟨k, time + t.dur, t.ok⟩ : Exec)]).length ≤ limit.toNat := by
      rw [List.length_append, List.length_singleton]
      omega
    have hpk : max peak (executing ++ [(⟨k, time + t.dur, t.ok⟩ : Exec)]).length ≤
        max peak limit.toNat :=
      Nat.max_le.mpr ⟨Nat.le_max_left _ _, le_trans hexlen (Nat.le_max_right _ _)⟩
    simp only [runLoop]
    by_cases hc : ((executing ++ [(⟨k, time + t.dur, t.ok⟩ : Exec)]).length : Int) ≥ limit
    · rw [if_pos hc]
      by_cases hw :
          (raceWinner (executing ++ [(⟨k, time + t.dur, t.ok⟩ : Exec)])
            ⟨k, time + t.dur, t.ok⟩).ok = true
      · rw [if_pos hw]
        have hwmem : raceWinner (executing ++ [(⟨k, time + t.dur, t.ok⟩ : Exec)])
            ⟨k, time + t.dur, t.ok⟩ ∈ executing ++ [(⟨k, time + t.dur, t.ok⟩ : Exec)] :=
          raceWinner_mem _ (by simp)
        have herase := length_eraseExec hwmem
        have hrec := ih (k + 1)
          (raceWinner (executing ++ [(⟨k, time + t.dur, t.ok⟩ : Exec)])
            ⟨k, time + t.dur, t.ok⟩).finish
          (eraseExec
            (raceWinner (executing ++ [(⟨k, time + t.dur, t.ok⟩ : Exec)])
              ⟨k, time + t.dur, t.ok⟩)
            (executing ++ [(⟨k, time + t.dur, t.ok⟩ : Exec)]))
          ((k, time) :: starts)
          (max peak (executing ++ [(⟨k, time + t.dur, t.ok⟩ : Exec)]).length)
          (by omega)
        exact le_trans hrec (Nat.max_le.mpr ⟨hpk, Nat.le_max_right _ _⟩)
      · rw [if_neg hw]
        exact hpk
    · rw [if_neg hc]
      have hlen : (executing ++ [(⟨k, time + t.dur, t.ok⟩ : Exec)]).length + 1 ≤
          limit.toNat := by
        rw [List.length_append, List.length_singleton] at hc ⊢
        omega
      have hrec := ih (k + 1) time (executing ++ [(⟨k, time + t.dur, t.ok⟩ : Exec)])
        ((k, time) :: starts)
        (max peak (executing ++ [(⟨k, time + t.dur, t.ok⟩ : Exec)]).length) hlen
      exact le_trans hrec (Nat.max_le.mpr ⟨hpk, Nat.le_max_right _ _⟩)

/-- With `limit ≤ 0` the admission test `executing.size >= limit` is
true after every start, so the loop races (and hence drains the single
member) after each admission: the set size never exceeds 1. -/
lemma runLoop_peak_nonpos (limit : Int) (hlim : limit ≤ 0) :
    ∀ (pending : List Task) (k time : Nat) (starts : List (Nat × Nat)) (peak : Nat),
      (runLoop limit pending k time [] starts peak).peak ≤ max peak 1 := by
  intro pending
  induction pending with
  | nil =>
    intro k time starts peak
    rw [runLoop]
    exact Nat.le_max_left _ _
  | cons t rest ih =>
    intro k time starts peak
    simp only [runLoop]
    have hc : ((([] : List Exec) ++ [(⟨k, time + t.dur, t.ok⟩ : Exec)]).length : Int) ≥
        limit := by
      rw [List.nil_append, List.length_singleton]
      omega
    rw [if_pos hc]
    have hwin : raceWinner (([] : List Exec) ++ [(⟨k, time + t.dur, t.ok⟩ : Exec)])
        ⟨k, time + t.dur, t.ok⟩ = ⟨k, time + t.dur, t.ok⟩ := by
      rw [List.nil_append]
      rfl
    rw [hwin]
    by_cases hw : t.ok = true
    · rw [if_pos hw]
      have herase : eraseExec (⟨k, time + t.dur, t.ok⟩ : Exec)
          (([] : List Exec) ++ [(⟨k, time + t.dur, t.ok⟩ : Exec)]) = [] := by
        rw [List.nil_append, eraseExec, if_pos rfl]
      rw [herase]
      have hrec := ih (k + 1) (time + t.dur) ((k, time) :: starts)
        (max peak (([] : List Exec) ++ [(⟨k, time + t.dur, t.ok⟩ : Exec)]).length)
      refine le_trans hrec (Nat.max_le.mpr ⟨?_, Nat.le_max_right _ _⟩)
      rw [List.nil_append, List.length_singleton]
    · rw [if_neg hw]
      rw [List.nil_append, List.length_singleton]

/-- When no pending task and no in-flight member rejects, the runner
resolves: every pending task is started, in submission order, and the
resolved time is reached no earlier than the settle time of every
started task and of every in-flight member. -/
lemma runLoop_allOk (limit : Int) :
    ∀ (pending : List Task) (k time : Nat) (executing : List Exec)
      (starts : List (Nat × Nat)) (peak : Nat),
      (∀ t ∈ pending, t.ok = true) →
      (∀ e ∈ executing, e.ok = true) →
      (∀ e ∈ executing, time ≤ e.finish) →
      ∃ T L,
        (runLoop limit pending k time executing starts peak).outcome = .resolved T ∧
        (runLoop limit pending k time executing starts peak).starts =
          starts.reverse ++ L ∧
        L.map Prod.fst = List.range' k pending.length ∧
        time ≤ T ∧
        (∀ e ∈ executing, e.finish ≤ T) ∧
        (∀ q ∈ L.zip pending, q.1.2 + q.2.dur ≤ T) := by
  intro pending
  induction pending with
  | nil =>
    intro k time executing starts peak _ hok hfin
    refine ⟨maxFinish time executing, [], ?_, ?_, ?_, ?_, ?_, ?_⟩
    · rw [runLoop, rejecting_eq_nil hok]
    · rw [runLoop, rejecting_eq_nil hok]
      simp
    · simp
    · exact le_maxFinish _ _
    · exact fun e he => finish_le_maxFinish _ _ e he
    · simp
  | cons t rest ih =>
    intro k time executing starts peak hpend hok hfin
    have hok_t : t.ok = true := hpend t (List.mem_cons_self _ _)
    simp only [runLoop]
    set e0 : Exec := ⟨k, time + t.dur, t.ok⟩ with he0def
    have he0mem : e0 ∈ executing ++ [e0] :=
      List.mem_append_right _ (List.mem_singleton.mpr rfl)
    have hexok : ∀ e ∈ executing ++ [e0], e.ok = true := by
      intro e he
      rcases List.mem_append.mp he with he | he
      · exact hok e he
      · rw [List.mem_singleton.mp he, he0def]
        exact hok_t
    have hfinex : ∀ e ∈ executing ++ [e0], time ≤ e.finish := by
      intro e he
      rcases List.mem_append.mp he with he | he
      · exact hfin e he
      · rw [List.mem_singleton.mp he, he0def]
        exact Nat.le_add_right _ _
    by_cases hc : (((executing ++ [e0]).length : Int) ≥ limit)
    · rw [if_pos hc]
      have hne : executing ++ [e0] ≠ [] := by simp
      have hwmem := raceWinner_mem (l := executing ++ [e0]) e0 hne
      have hw : (raceWinner (executing ++ [e0]) e0).ok = true := hexok _ hwmem
      rw [if_pos hw]
      obtain ⟨T, L', hout, hstarts, hmap, htime, hbound, hzip⟩ := ih (k + 1)
        (raceWinner (executing ++ [e0]) e0).finish
        (eraseExec (raceWinner (executing ++ [e0]) e0) (executing ++ [e0]))
        ((k, time) :: starts) (max peak (executing ++ [e0]).length)
        (fun t' ht' => hpend t' (List.mem_cons_of_mem _ ht'))
        (fun e he => hexok e (mem_of_mem_eraseExec he))
        (fun e he => raceWinner_min e0 hne e (mem_of_mem_eraseExec he))
      refine ⟨T, (k, time) :: L', hout, ?_, ?_, ?_, ?_, ?_⟩
      · rw [hstarts]
        simp [List.reverse_cons, List.append_assoc]
      · simp only [List.map_cons, hmap, List.length_cons]
        rw [List.range'_succ]
      · exact le_trans (hfinex _ hwmem) htime
      · intro e he
        by_cases hew : e = raceWinner (executing ++ [e0]) e0
        · rw [hew]
          exact htime
        · exact hbound e (mem_eraseExec_of_ne hew (List.mem_append_left _ he))
      · intro q hq
        rcases List.mem_cons.mp hq with rfl | hq
        · show time + t.dur ≤ T
          by_cases hew : e0 = raceWinner (executing ++ [e0]) e0
          · have : e0.finish ≤ T := by
              rw [hew]
              exact htime
            exact this
          · exact hbound e0 (mem_eraseExec_of_ne hew he0mem)
        · exact hzip q hq
    · rw [if_neg hc]
      obtain ⟨T, L', hout, hstarts, hmap, htime, hbound, hzip⟩ := ih (k + 1) time
        (executing ++ [e0]) ((k, time) :: starts) (max peak (executing ++ [e0]).length)
        (fun t' ht' => hpend t' (List.mem_cons_of_mem _ ht'))
        hexok hfinex
      refine ⟨T, (k, time) :: L', hout, ?_, ?_, htime, ?_, ?_⟩
      · rw [hstarts]
        simp [List.reverse_cons, List.append_assoc]
      · simp only [List.map_cons, hmap, List.length_cons]
        rw [List.range'_succ]
      · exact fun e he => hbound e (List.mem_append_left _ he)
      · intro q hq
        rcases List.mem_cons.mp hq with rfl | hq
        · exact hbound e0 he0mem
        · exact hzip q hq

/-- A started task with index at least `limit` can only have been
admitted after an earlier-submitted task had already settled: when such
a task starts, the loop has already awaited at least one race, and the
winner of the last race before this start settled no later than this
start time. -/
lemma runLoop_slot (tasks : List Task) (limit : Int) (hlim : 1 ≤ limit) :
    ∀ (pending : List Task) (k time : Nat) (executing : List Exec)
      (starts : List (Nat × Nat)) (peak : Nat),
      pending = tasks.drop k →
      starts.length = k →
      (∀ p ∈ starts, p.1 < k) →
      executing.length + 1 ≤ limit.toNat →
      (∀ e ∈ executing, ∃ s u, (e.idx, s) ∈ starts ∧ tasks.get? e.idx = some u ∧
          e.finish = s + u.dur) →
      (executing.length < starts.length →
        ∃ i si ti, (i, si) ∈ starts ∧ tasks.get? i = some ti ∧ si + ti.dur ≤ time) →
      (∀ p ∈ starts, (p.1 : Int) ≥ limit →
        ∃ i si ti, (i, si) ∈ starts ∧ i < p.1 ∧ tasks.get? i = some ti ∧
          si + ti.dur ≤ p.2) →
      ∀ p ∈ (runLoop limit pending k time executing starts peak).starts,
        (p.1 : Int) ≥ limit →
        ∃ i si ti, (i, si) ∈ (runLoop limit pending k time executing starts peak).starts ∧
          i < p.1 ∧ tasks.get? i = some ti ∧ si + ti.dur ≤ p.2 := by
  intro pending
  induction pending with
  | nil =>
    intro k time executing starts peak _ _ _ _ _ _ hprop p hp hge
    rw [runLoop] at hp ⊢
    cases hrej : rejecting executing with
    | nil =>
      rw [hrej] at hp
      obtain ⟨i, si, ti, hmem, hlt, hget, hle⟩ :=
        hprop p (List.mem_reverse.mp hp) hge
      exact ⟨i, si, ti, List.mem_reverse.mpr hmem, hlt, hget, hle⟩
    | cons b bs =>
      rw [hrej] at hp
      obtain ⟨i, si, ti, hmem, hlt, hget, hle⟩ :=
        hprop p (List.mem_reverse.mp hp) hge
      exact ⟨i, si, ti, List.mem_reverse.mpr hmem, hlt, hget, hle⟩
  | cons t rest ih =>
    intro k time executing starts peak hdrop hklen hidx hcap hcorr hdone hprop
    obtain ⟨hget_k, hrest⟩ := drop_eq_cons_get tasks k t rest hdrop.symm
    simp only [runLoop]
    set e0 : Exec := ⟨k, time + t.dur, t.ok⟩ with he0def
    have he0mem : e0 ∈ executing ++ [e0] :=
      List.mem_append_right _ (List.mem_singleton.mpr rfl)
    -- the new start list and its invariants
    have hklen' : ((k, time) :: starts).length = k + 1 := by
      rw [List.length_cons, hklen]
    have hidx' : ∀ p ∈ (k, time) :: starts, p.1 < k + 1 := by
      intro p hp
      rcases List.mem_cons.mp hp with rfl | hp
      · exact Nat.lt_succ_self _
      · exact Nat.lt_succ_of_lt (hidx p hp)
    have hcorr' : ∀ e ∈ executing ++ [e0],
        ∃ s u, (e.idx, s) ∈ (k, time) :: starts ∧ tasks.get? e.idx = some u ∧
          e.finish = s + u.dur := by
      intro e he
      rcases List.mem_append.mp he with he | he
      · obtain ⟨s, u, hmem, hget, hfin⟩ := hcorr e he
        exact ⟨s, u, List.mem_cons_of_mem _ hmem, hget, hfin⟩
      · rw [List.mem_singleton.mp he, he0def]
        exact ⟨time, t, List.mem_cons_self _ _, hget_k, rfl⟩
    have hprop' : ∀ p ∈ (k, time) :: starts, (p.1 : Int) ≥ limit →
        ∃ i si ti, (i, si) ∈ (k, time) :: starts ∧ i < p.1 ∧
          tasks.get? i = some ti ∧ si + ti.dur ≤ p.2 := by
      intro p hp hge
      rcases List.mem_cons.mp hp with rfl | hp
      · have hkk : limit.toNat ≤ k := by
          have : ((k, time).1 : Int) ≥ limit := hge
          simp only at this
          omega
        have hlt : executing.length < starts.length := by omega
        obtain ⟨i, si, ti, hmem, hget, hle⟩ := hdone hlt
        exact ⟨i, si, ti, List.mem_cons_of_mem _ hmem, hidx (i, si) hmem, hget, hle⟩
      · obtain ⟨i, si, ti, hmem, hlt, hget, hle⟩ := hprop p hp hge
        exact ⟨i, si, ti, List.mem_cons_of_mem _ hmem, hlt, hget, hle⟩
    by_cases hc : (((executing ++ [e0]).length : Int) ≥ limit)
    · rw [if_pos hc]
      by_cases hw : (raceWinner (executing ++ [e0]) e0).ok = true
      · rw [if_pos hw]
        have hne : executing ++ [e0] ≠ [] := by simp
        have hwmem := raceWinner_mem (l := executing ++ [e0]) e0 hne
        apply ih (k + 1) (raceWinner (executing ++ [e0]) e0).finish
          (eraseExec (raceWinner (executing ++ [e0]) e0) (executing ++ [e0]))
          ((k, time) :: starts) (max peak (executing ++ [e0]).length)
          hrest.symm hklen' hidx'
        · have := length_eraseExec hwmem
          rw [List.length_append, List.length_singleton] at this
          omega
        · exact fun e he => hcorr' e (mem_of_mem_eraseExec he)
        · intro _
          obtain ⟨s, u, hmem, hget, hfin⟩ := hcorr' _ hwmem
          exact ⟨(raceWinner (executing ++ [e0]) e0).idx, s, u, hmem, hget, le_of_eq hfin.symm⟩
        · exact hprop'
      · rw [if_neg hw]
        intro p hp hge
        obtain ⟨i, si, ti, hmem, hlt, hget, hle⟩ :=
          hprop' p (List.mem_reverse.mp hp) hge
        exact ⟨i, si, ti, List.mem_reverse.mpr hmem, hlt, hget, hle⟩
    · rw [if_neg hc]
      apply ih (k + 1) time (executing ++ [e0]) ((k, time) :: starts)
        (max peak (executing ++ [e0]).length) hrest.symm hklen' hidx'
      · rw [List.length_append, List.length_singleton] at hc ⊢
        omega
      · exact hcorr'
      · intro hlt
        rw [List.length_append, List.length_singleton, hklen'] at hlt
        have hlt' : executing.length < starts.length := by omega
        obtain ⟨i, si, ti, hmem, hget, hle⟩ := hdone hlt'
        exact ⟨i, si, ti, List.mem_cons_of_mem _ hmem, hget, hle⟩
      · exact hprop'

/-- C1 counterexample: with limit 1 and a first job whose promise
rejects immediately, the runner's returned promise rejects instead of
resolving, and the second job of the batch is never started. -/
theorem C1_counterexample :
    (runWithConcurrency [⟨0, false⟩, ⟨3, true⟩] 1).outcome = .rejected 0 0 ∧
    (runWithConcurrency [⟨0, false⟩, ⟨3, true⟩] 1).starts = [(0, 0)] :=
  ⟨rfl, rfl⟩

/-- C1 (amended): `runWithConcurrency` does not tolerate per-job
rejection: whenever some job's promise rejects, the runner's returned
promise rejects (the rejection reaches the tracked promise through
`.finally` and is rethrown by the awaited `Promise.race` or
`Promise.all`). -/
theorem C1_rejection_rejects (tasks : List Task) (limit : Int) (hlim : 1 ≤ limit)
    (hbad : ∃ t ∈ tasks, t.ok = false) :
    ∃ T j, (runWithConcurrency tasks limit).outcome = .rejected T j :=
  runLoop_rejects limit tasks 0 0 [] [] 0 (Or.inl hbad)

/-- Witness for C1 at a concrete batch. -/
theorem C1_rejection_rejects_witness :
    ∃ T j, (runWithConcurrency [⟨2, false⟩] 3).outcome = .rejected T j :=
  C1_rejection_rejects [⟨2, false⟩] 3 (by decide) (by decide)

/-- C2: with `limit ≥ 1`, at no instant are more than `limit` jobs
simultaneously started-but-not-settled: the executing set's peak size
never exceeds the limit. -/
theorem C2_bounded_concurrency (tasks : List Task) (limit : Int) (hlim : 1 ≤ limit) :
    ((runWithConcurrency tasks limit).peak : Int) ≤ limit := by
  have h := runLoop_peak limit hlim tasks 0 0 [] [] 0 (by simp only [List.length_nil]; omega)
  have h2 : (runWithConcurrency tasks limit).peak ≤ limit.toNat := by
    simpa [runWithConcurrency, Nat.zero_max] using h
  omega

/-- Witness for C2 at a concrete batch and limit. -/
theorem C2_bounded_concurrency_witness :
    ((runWithConcurrency [⟨5, true⟩, ⟨1, false⟩, ⟨2, true⟩] 2).peak : Int) ≤ 2 :=
  C2_bounded_concurrency [⟨5, true⟩, ⟨1, false⟩, ⟨2, true⟩] 2 (by decide)

/-- C3 counterexample: with limit 1, a batch whose first job's promise
rejects starts only one of its two jobs (the second is dropped) and the
returned promise rejects, so it never resolves. -/
theorem C3_counterexample :
    (runWithConcurrency [⟨0, false⟩, ⟨0, true⟩] 1).starts.map Prod.fst = [0] ∧
    (runWithConcurrency [⟨0, false⟩, ⟨0, true⟩] 1).outcome = .rejected 0 0 :=
  ⟨rfl, rfl⟩

/-- C3 (amended): when every job's promise fulfils (jobs may still
report failure internally, but must not reject), `runWithConcurrency`
starts each submitted job exactly once, in submission order, and its
returned promise resolves only after every job has completed. -/
theorem C3_allok_completeness (tasks : List Task) (limit : Int) (hlim : 1 ≤ limit)
    (hok : ∀ t ∈ tasks, t.ok = true) :
    (runWithConcurrency tasks limit).starts.map Prod.fst = List.range tasks.length ∧
    ∃ T, (runWithConcurrency tasks limit).outcome = .resolved T ∧
      ∀ q ∈ (runWithConcurrency tasks limit).starts.zip tasks, q.1.2 + q.2.dur ≤ T := by
  obtain ⟨T, L, hout, hstarts, hmap, _, _, hzip⟩ :=
    runLoop_allOk limit tasks 0 0 [] [] 0 hok (by simp) (by simp)
  have hstarts' : (runWithConcurrency tasks limit).starts = L := by
    simpa [runWithConcurrency] using hstarts
  refine ⟨?_, T, hout, ?_⟩
  · rw [hstarts', hmap, List.range_eq_range']
  · intro q hq
    rw [hstarts'] at hq
    exact hzip q hq

/-- Witness for C3 (amended) at a concrete all-fulfilling batch. -/
theorem C3_allok_completeness_witness :
    (runWithConcurrency [⟨2, true⟩, ⟨1, true⟩] 1).starts.map Prod.fst =
      List.range ([⟨2, true⟩, ⟨1, true⟩] : List Task).length ∧
    ∃ T, (runWithConcurrency [⟨2, true⟩, ⟨1, true⟩] 1).outcome = .resolved T ∧
      ∀ q ∈ (runWithConcurrency [⟨2, true⟩, ⟨1, true⟩] 1).starts.zip
          ([⟨2, true⟩, ⟨1, true⟩] : List Task), q.1.2 + q.2.dur ≤ T :=
  C3_allok_completeness [⟨2, true⟩, ⟨1, true⟩] 1 (by decide) (by decide)

/-- C4 counterexample: called with `limit = 0 < 1`, `runWithConcurrency`
does not throw any configuration error: it runs the single job and its
promise resolves normally. -/
theorem C4_counterexample :
    runWithConcurrency [⟨5, true⟩] 0 = ⟨[(0, 0)], .resolved 5, 1⟩ :=
  rfl

/-- C4 (amended): `runWithConcurrency` performs no validation of
`limit`: called with `limit < 1` on jobs whose promises fulfil, it
throws nothing and completes normally, resolving its returned
promise. -/
theorem C4_no_fail_fast (tasks : List Task) (limit : Int) (hlim : limit ≤ 0)
    (hok : ∀ t ∈ tasks, t.ok = true) :
    ∃ T, (runWithConcurrency tasks limit).outcome = .resolved T := by
  obtain ⟨T, L, hout, _⟩ := runLoop_allOk limit tasks 0 0 [] [] 0 hok (by simp) (by simp)
  exact ⟨T, hout⟩

/-- Witness for C4 (amended) at a concrete batch and negative limit. -/
theorem C4_no_fail_fast_witness :
    ∃ T, (runWithConcurrency [⟨4, true⟩, ⟨1, true⟩] (-3)).outcome = .resolved T :=
  C4_no_fail_fast [⟨4, true⟩, ⟨1, true⟩] (-3) (by decide) (by decide)

/-- C7: jobs are started in submission order (the recorded start
indices are exactly `0, 1, 2, …` in order); a started job with index at
least `limit` starts only at or after the settle time of some
earlier-submitted job; and completion order is unconstrained, as in the
concrete batch `[500 ticks, 10 ticks]` with limit 2 where the
second-submitted job settles (at time 10) long before the first (at
time 500), the runner resolving only at 500. -/
theorem C7_start_ordering :
    (∀ (tasks : List Task) (limit : Int), 1 ≤ limit →
      (runWithConcurrency tasks limit).starts.map Prod.fst =
        List.range (runWithConcurrency tasks limit).starts.length) ∧
    (∀ (tasks : List Task) (limit : Int), 1 ≤ limit →
      ∀ p ∈ (runWithConcurrency tasks limit).starts, (p.1 : Int) ≥ limit →
        ∃ i si ti, (i, si) ∈ (runWithConcurrency tasks limit).starts ∧ i < p.1 ∧
          tasks.get? i = some ti ∧ si + ti.dur ≤ p.2) ∧
    runWithConcurrency [⟨500, true⟩, ⟨10, true⟩] 2 =
      ⟨[(0, 0), (1, 0)], .resolved 500, 2⟩ := by
  refine ⟨?_, ?_, rfl⟩
  · intro tasks limit _
    obtain ⟨m, _, heq⟩ := runLoop_starts_shape limit tasks 0 0 [] [] 0
    have heq' : (runWithConcurrency tasks limit).starts.map Prod.fst =
        List.range' 0 m := by
      simpa [runWithConcurrency] using heq
    rw [heq', List.range_eq_range']
    congr 1
    have hlen : ((runWithConcurrency tasks limit).starts.map Prod.fst).length = m := by
      rw [heq']
      exact List.length_range' _ _ _
    rw [← hlen, List.length_map]
  · intro tasks limit hlim
    exact runLoop_slot tasks limit hlim tasks 0 0 [] [] 0 rfl rfl (by simp)
      (by simp only [List.length_nil]; omega) (by simp) (by simp) (by simp)

/-- Witness for C7 at a concrete batch: three unit jobs with limit 2;
the third job (index 2 ≥ limit) starts at time 1, after job 0 settled
at time 1. -/
theorem C7_start_ordering_witness :
    ((runWithConcurrency [⟨1, true⟩, ⟨1, true⟩, ⟨1, true⟩] 2).starts.map Prod.fst =
      List.range (runWithConcurrency [⟨1, true⟩, ⟨1, true⟩, ⟨1, true⟩] 2).starts.length) ∧
    (∃ i si ti,
      (i, si) ∈ (runWithConcurrency [⟨1, true⟩, ⟨1, true⟩, ⟨1, true⟩] 2).starts ∧
      i < (2, 1).1 ∧ ([⟨1, true⟩, ⟨1, true⟩, ⟨1, true⟩] : List Task).get? i = some ti ∧
      si + ti.dur ≤ (2, 1).2) :=
  ⟨C7_start_ordering.1 [⟨1, true⟩, ⟨1, true⟩, ⟨1, true⟩] 2 (by decide),
   C7_start_ordering.2.1 [⟨1, true⟩, ⟨1, true⟩, ⟨1, true⟩] 2 (by decide) (2, 1)
     (by decide) (by decide)⟩

/-- C10: with `limit ≤ 0` and jobs whose promises all fulfil,
`runWithConcurrency` does not throw: it invokes every task exactly once
in order, at most one task is in flight at a time (the loop awaits
after each admission), and its returned promise resolves only after all
tasks have completed. -/
theorem C10_nonpos_limit (tasks : List Task) (limit : Int) (hlim : limit ≤ 0)
    (hok : ∀ t ∈ tasks, t.ok = true) :
    (runWithConcurrency tasks limit).starts.map Prod.fst = List.range tasks.length ∧
    (runWithConcurrency tasks limit).peak ≤ 1 ∧
    ∃ T, (runWithConcurrency tasks limit).outcome = .resolved T ∧
      ∀ q ∈ (runWithConcurrency tasks limit).starts.zip tasks, q.1.2 + q.2.dur ≤ T := by
  obtain ⟨T, L, hout, hstarts, hmap, _, _, hzip⟩ :=
    runLoop_allOk limit tasks 0 0 [] [] 0 hok (by simp) (by simp)
  have hstarts' : (runWithConcurrency tasks limit).starts = L := by
    simpa [runWithConcurrency] using hstarts
  refine ⟨?_, ?_, T, hout, ?_⟩
  · rw [hstarts', hmap, List.range_eq_range']
  · have h := runLoop_peak_nonpos limit hlim tasks 0 0 [] 0
    simpa [runWithConcurrency, Nat.zero_max] using h
  · intro q hq
    rw [hstarts'] at hq
    exact hzip q hq

/-- Witness for C10 at a concrete batch and non-positive limit. -/
theorem C10_nonpos_limit_witness :
    (runWithConcurrency [⟨3, true⟩, ⟨2, true⟩] 0).starts.map Prod.fst =
      List.range ([⟨3, true⟩, ⟨2, true⟩] : List Task).length ∧
    (runWithConcurrency [⟨3, true⟩, ⟨2, true⟩] 0).peak ≤ 1 ∧
    ∃ T, (runWithConcurrency [⟨3, true⟩, ⟨2, true⟩] 0).outcome = .resolved T ∧
      ∀ q ∈ (runWithConcurrency [⟨3, true⟩, ⟨2, true⟩] 0).starts.zip
          ([⟨3, true⟩, ⟨2, true⟩] : List Task), q.1.2 + q.2.dur ≤ T :=
  C10_nonpos_limit [⟨3, true⟩, ⟨2, true⟩] 0 (by decide) (by decide)

end Roket
